import Mathlib

/-!
Shallow embedding of the polisim simulation core (src/libpolisim/src/sim.rs)
and the pure part of its TOML loader (src/libpolisim/src/loader.rs).

Modelling conventions:
* `f64` values are modelled as elements of a linear ordered field (instantiated
  at `ℚ` for executable checks and at `ℝ` where `cosine_similarity`, which
  takes a real square root, is involved).  IEEE artefacts (NaN, infinities,
  rounding, the sign bit of `-0.0`) have no counterpart in an ordered field.
* `f64::EPSILON = 2⁻⁵²` is the exact rational constant `epsF`.
* petgraph's `DiGraph` is modelled by explicit node / edge lists; a `NodeIndex`
  is the position of the node in insertion order, exactly the `index()` used by
  the code to address the `scores` and `votes` vectors.
* The per-round random shuffle of `run` is externalised: `run` takes one
  processing order per round (`orders : List (List Nat)`); the Rust code
  performs `max_rounds` rounds, modelled by `orders.length` rounds.
* Array indexing `v[i]` is modelled totally by `List.getD i 0` / `List.set`
  (which leave out-of-range accesses inert where Rust would panic); the
  panic-freedom claim is settled separately through the `Option`-valued
  variants `peer?`, `party?`, `update_node_score?`, `run?`, in which every
  index is checked.
-/

namespace Polisim

/-- `f64::EPSILON` = 2⁻⁵², as an exact constant of the score field. -/
def epsF (α : Type*) [LinearOrderedField α] : α := 1 / 2 ^ 52

/-- Embedding of `f64::signum` on representable (non-NaN, finite) values:
`1` for `x ≥ 0` (Rust returns `1.0` both for positive values and for `+0.0`)
and `-1` for `x < 0`.  The IEEE value `-0.0` (for which Rust returns `-1.0`)
is identified with `0` in an ordered field and is therefore outside this
model. -/
def fsignum {α : Type*} [LinearOrderedField α] (x : α) : α :=
  if 0 ≤ x then 1 else -1

/-- `Node` from sim.rs: a congress member.  `ideal` is the member's policy
vector (a `DVector<f64>`). -/
structure Node (α : Type*) where
  id : String
  ideal : List α
  bias : α
  swing : α

/-- One directed influence edge of the petgraph `DiGraph<Node, f64>`:
endpoints are node indices, the edge weight is the `f64` payload. -/
structure Edge (α : Type*) where
  source : Nat
  target : Nat
  weight : α

/-- `Party` from sim.rs; `members` holds `NodeIndex` values. -/
structure Party (α : Type*) where
  id : String
  discipline : α
  members : List Nat

/-- `CongressGraph` from sim.rs: the petgraph node and edge arenas plus the
party list.  The `node_party_map` HashMap is not stored: it is recomputed from
`parties` by `node_party_map` below, faithful to how `add_party` fills it. -/
structure CongressGraph (α : Type*) where
  nodes : List (Node α)
  edges : List (Edge α)
  parties : List (Party α)

/-- `HashMap::insert` on a `NodeIndex → usize` map, as an association list
with shadowing: the new binding is consed in front, and lookups take the
first (most recent) match, exactly the overwrite semantics of the HashMap. -/
def mapInsert (m : List (Nat × Nat)) (k v : Nat) : List (Nat × Nat) :=
  (k, v) :: m

/-- The `node_party_map` built by the successive `add_party` calls: party
`party_idx` inserts `(member, party_idx)` for each of its members, in order,
later insertions overwriting earlier ones. -/
def node_party_map {α : Type*} (parties : List (Party α)) : List (Nat × Nat) :=
  parties.enum.foldl
    (fun m ip => ip.2.members.foldl (fun m' mem => mapInsert m' mem ip.1) m) []

/-- `CongressGraph::get_party_index`: HashMap lookup. -/
def get_party_index {α : Type*} (g : CongressGraph α) (i : Nat) : Option Nat :=
  ((node_party_map g.parties).find? (fun p => p.1 = i)).map Prod.snd

/-- `CongressGraph::get_party`: `self.parties.get(party_idx)`. -/
def get_party {α : Type*} (g : CongressGraph α) (pidx : Nat) : Option (Party α) :=
  g.parties.get? pidx

section Sim

variable {α : Type*} [LinearOrderedField α]

/-- `Simulator::calculate_peer_pressure`: fold over the incoming edges of
`i` accumulating `(weighted_sum, total_weight)`, then guarded division. -/
def calculate_peer_pressure (g : CongressGraph α) (scores : List α) (i : Nat) : α :=
  let p := (g.edges.filter (fun e => e.target = i)).foldl
    (fun acc e =>
      (acc.1 + e.weight * fsignum (scores.getD e.source 0), acc.2 + e.weight))
    ((0 : α), (0 : α))
  if epsF α < |p.2| then p.1 / p.2 else 0

/-- `Simulator::calculate_party_pressure`: party lookup, then fold over the
party's members accumulating `(total_vote, count)`, guarded division. -/
def calculate_party_pressure (g : CongressGraph α) (scores : List α) (i : Nat) : α :=
  match (get_party_index g i).bind (get_party g) with
  | none => 0
  | some party =>
    let t := party.members.foldl
      (fun acc m => (acc.1 + fsignum (scores.getD m 0), acc.2 + 1))
      ((0 : α), (0 : ℕ))
    if t.2 = 0 then 0 else party.discipline * (t.1 / (t.2 : α))

/-- `Simulator::update_node_score`: read the node's swing and current score,
write `(1-swing)*current + swing*social` back to the same slot. -/
def update_node_score (g : CongressGraph α) (scores : List α) (i : Nat)
    (social_pressure : α) : List α :=
  match g.nodes.get? i with
  | none => scores
  | some node =>
    scores.set i ((1 - node.swing) * scores.getD i 0 + node.swing * social_pressure)

/-- One iteration of the inner loop of `Simulator::run`: peer pressure plus
party pressure, then the in-place score update. -/
def processNode (g : CongressGraph α) (scores : List α) (i : Nat) : List α :=
  update_node_score g scores i
    (calculate_peer_pressure g scores i + calculate_party_pressure g scores i)

/-- One round of `Simulator::run`: process every node in the (shuffled)
`order`, each step reading the scores already written by the previous ones. -/
def processRound (g : CongressGraph α) (scores : List α) (order : List Nat) : List α :=
  order.foldl (processNode g) scores

/-- Vote finalization rule of `Simulator::run`: `1` if `score > threshold`,
`-1` if `score < -threshold`, `0` otherwise. -/
def finalizeVote (threshold score : α) : ℤ :=
  if score > threshold then 1 else if score < -threshold then -1 else 0

/-- Simulation state of `Simulator` (the `congress` reference and the proposal
are passed separately where needed). -/
structure Simulator (α : Type*) where
  scores : List α
  votes : List ℤ

/-- `Simulator::run`: `orders.length` rounds of in-place updates, then a
single vote-finalization pass over all node indices. -/
def run (g : CongressGraph α) (sim : Simulator α) (orders : List (List Nat))
    (threshold : α) : Simulator α :=
  let final := orders.foldl (processRound g) sim.scores
  { scores := final
    votes := (List.range g.nodes.length).map (fun i => finalizeVote threshold (final.getD i 0)) }

end Sim

/-- nalgebra `a.dot(b)`: the sum of componentwise products.  nalgebra asserts
equal dimensions (a mismatch panics), so this model is faithful only under
that precondition, which every theorem about it imposes; `zipWith` truncates
where Rust would panic. -/
def dot {α : Type*} [LinearOrderedField α] (a b : List α) : α :=
  (List.zipWith (· * ·) a b).sum

/-- nalgebra `a.norm()`: the Euclidean norm `√(a·a)`. -/
noncomputable def vnorm (a : List ℝ) : ℝ := Real.sqrt (dot a a)

/-- `cosine_similarity` from sim.rs: `dot/(‖a‖‖b‖)`, or `0` when either norm
is below `f64::EPSILON` in absolute value. -/
noncomputable def cosine_similarity (a b : List ℝ) : ℝ :=
  if |vnorm a| < epsF ℝ ∨ |vnorm b| < epsF ℝ then 0
  else dot a b / (vnorm a * vnorm b)

/-- `Simulator::new`: one score per node, `cosine_similarity(ideal, proposal)
+ bias`, written at the node's index; votes start as `vec![0; node_count]`. -/
noncomputable def Simulator.new (g : CongressGraph ℝ) (proposal : List ℝ) :
    Simulator ℝ :=
  { scores := g.nodes.map (fun n => cosine_similarity n.ideal proposal + n.bias)
    votes := List.replicate g.nodes.length 0 }

/-- The five `Majority` variants of sim.rs. -/
inductive Majority where
  | SIMPLE
  | SUPER
  | ABSSIMPLE
  | ABSSUPER
  | UNANIMITY

/-- The vote tally of `Simulator::passes`: `(yes, no, abstain)` counts of the
votes vector (`run` only ever writes `1`, `-1` and `0`; any other value hits
`unreachable!` in the code and is not counted here). -/
def tally (votes : List ℤ) : ℕ × ℕ × ℕ :=
  (votes.count 1, votes.count (-1), votes.count 0)

/-- The rule dispatch of `Simulator::passes` on the three counts.  The `f64`
divisions and the literal `0.5` / `2.0/3.0` thresholds are modelled as exact
rational arithmetic. -/
def passesCounts (yes no abstain : ℕ) (rule : Majority) : Bool :=
  let total_cast := yes + no
  let total_all := yes + no + abstain
  match rule with
  | .SIMPLE =>
    if total_cast = 0 then false else decide ((yes : ℚ) / (total_cast : ℚ) > 1 / 2)
  | .SUPER =>
    if total_cast = 0 then false else decide ((yes : ℚ) / (total_cast : ℚ) > 2 / 3)
  | .ABSSIMPLE =>
    if total_all = 0 then false else decide ((yes : ℚ) / (total_all : ℚ) > 1 / 2)
  | .ABSSUPER =>
    if total_all = 0 then false else decide ((yes : ℚ) / (total_all : ℚ) > 2 / 3)
  | .UNANIMITY => decide (total_all > 0) && decide (yes = total_all)

/-- `Simulator::passes`: tally the votes, then apply the rule. -/
def passes (votes : List ℤ) (rule : Majority) : Bool :=
  passesCounts (tally votes).1 (tally votes).2.1 (tally votes).2.2 rule

section Checked

variable {α : Type} [LinearOrderedField α]

/-- `calculate_peer_pressure` with every `scores[...]` access checked:
`none` exactly where the Rust indexing would panic. -/
def peer? (g : CongressGraph α) (scores : List α) (i : Nat) : Option α := do
  let p ← (g.edges.filter (fun e => e.target = i)).foldlM
    (fun (acc : α × α) e => do
      let s ← scores.get? e.source
      pure (acc.1 + e.weight * fsignum s, acc.2 + e.weight))
    ((0 : α), (0 : α))
  pure (if epsF α < |p.2| then p.1 / p.2 else 0)

/-- `calculate_party_pressure` with checked score accesses. -/
def party? (g : CongressGraph α) (scores : List α) (i : Nat) : Option α :=
  match (get_party_index g i).bind (get_party g) with
  | none => pure 0
  | some party => do
    let t ← party.members.foldlM
      (fun (acc : α × ℕ) m => do
        let s ← scores.get? m
        pure (acc.1 + fsignum s, acc.2 + 1))
      ((0 : α), (0 : ℕ))
    pure (if t.2 = 0 then 0 else party.discipline * (t.1 / (t.2 : α)))

/-- `update_node_score` with the node lookup (`graph[node_idx]`) and the
score read/write checked. -/
def update_node_score? (g : CongressGraph α) (scores : List α) (i : Nat)
    (social_pressure : α) : Option (List α) := do
  let node ← g.nodes.get? i
  let cur ← scores.get? i
  pure (scores.set i ((1 - node.swing) * cur + node.swing * social_pressure))

/-- The checked inner loop body of `run`. -/
def processNode? (g : CongressGraph α) (scores : List α) (i : Nat) :
    Option (List α) := do
  let pp ← peer? g scores i
  let qp ← party? g scores i
  update_node_score? g scores i (pp + qp)

/-- One checked round. -/
def processRound? (g : CongressGraph α) (scores : List α) (order : List Nat) :
    Option (List α) :=
  order.foldlM (processNode? g) scores

/-- `Simulator::run` with every array access checked: `none` exactly when
some index into `scores`/`votes`/the node arena would be out of bounds. -/
def run? (g : CongressGraph α) (sim : Simulator α) (orders : List (List Nat))
    (threshold : α) : Option (Simulator α) := do
  let final ← orders.foldlM (processRound? g) sim.scores
  let votes : List ℤ ← (List.range g.nodes.length).mapM (fun i => do
    let s ← final.get? i
    pure (finalizeVote threshold s))
  pure { scores := final, votes := votes }

/-- Graph validity: the invariant the loader establishes (§3 of the spec):
every edge endpoint and every party member reference is an existing node. -/
def ValidGraph (g : CongressGraph α) : Prop :=
  (∀ e ∈ g.edges, e.source < g.nodes.length ∧ e.target < g.nodes.length) ∧
  (∀ p ∈ g.parties, ∀ m ∈ p.members, m < g.nodes.length)

end Checked

section Loader

variable {α : Type} [LinearOrderedField α]

/-- `RawMember` from loader.rs (post-deserialization). -/
structure RawMember (α : Type*) where
  id : String
  ideal : List α
  bias : α
  swing : α

/-- `RawParty` from loader.rs. -/
structure RawParty (α : Type*) where
  id : String
  discipline : α
  members : List String

/-- `RawEdge` from loader.rs (`from` and `to` are Lean keywords, hence the
trailing underscores). -/
structure RawEdge (α : Type*) where
  from_ : String
  to_ : String
  weight : α

/-- `RawConfig` from loader.rs: the parsed TOML. -/
structure RawConfig (α : Type*) where
  ideal_dimension : Nat
  congress_members : List (RawMember α)
  parties : List (RawParty α)
  edges : Option (List (RawEdge α))

/-- `HashMap::insert` on the loader's `String → NodeIndex` `index_map`,
as a shadowing association list: lookups take the first (most recent) match,
exactly the overwrite semantics of the HashMap. -/
def insertStr (m : List (String × Nat)) (k : String) (v : Nat) :
    List (String × Nat) :=
  (k, v) :: m

/-- `HashMap::get` on the `index_map`. -/
def lookupStr (m : List (String × Nat)) (k : String) : Option Nat :=
  (m.find? (fun p => p.1 = k)).map Prod.snd

/-- Step 3 of `load_congress_graph_from_toml`: insert the members in order,
checking the ideal-vector length against `ideal_dimension`, building the node
arena (`cg.add_node` returns the next index, i.e. the current node count) and
the `index_map`. -/
def insertMembers (dim : Nat) :
    List (RawMember α) → List (Node α) → List (String × Nat) →
    Except String (List (Node α) × List (String × Nat))
  | [], nodes, m => .ok (nodes, m)
  | rm :: rest, nodes, m =>
    if rm.ideal.length ≠ dim then
      .error ("Member `" ++ rm.id ++ "` has ideal length " ++
        toString rm.ideal.length ++ ", but ideal_dimension = " ++ toString dim)
    else
      insertMembers dim rest
        (nodes ++ [{ id := rm.id, ideal := rm.ideal, bias := rm.bias,
                     swing := rm.swing }])
        (insertStr m rm.id nodes.length)

/-- Step 4 of `load_congress_graph_from_toml`: resolve each edge's endpoint
ids through the `index_map`, erroring on the first unknown id. -/
def resolveEdges (m : List (String × Nat)) :
    List (RawEdge α) → Except String (List (Edge α))
  | [] => .ok []
  | e :: rest =>
    match lookupStr m e.from_ with
    | none => .error ("Unknown edge.from node `" ++ e.from_ ++ "`")
    | some fi =>
      match lookupStr m e.to_ with
      | none => .error ("Unknown edge.to_ node `" ++ e.to_ ++ "`")
      | some ti => do
        let tail ← resolveEdges m rest
        .ok ({ source := fi, target := ti, weight := e.weight } :: tail)

/-- The member-id resolution loop inside step 5. -/
def resolveMemberIds (m : List (String × Nat)) (pid : String) :
    List String → Except String (List Nat)
  | [] => .ok []
  | mid :: rest =>
    match lookupStr m mid with
    | none => .error ("Party `" ++ pid ++ "` refers to unknown member `" ++ mid ++ "`")
    | some ni => do
      let tail ← resolveMemberIds m pid rest
      .ok (ni :: tail)

/-- Step 5 of `load_congress_graph_from_toml`: resolve each party's member
ids, erroring on the first unknown id. -/
def resolveParties (m : List (String × Nat)) :
    List (RawParty α) → Except String (List (Party α))
  | [] => .ok []
  | rp :: rest => do
    let mids ← resolveMemberIds m rp.id rp.members
    let tail ← resolveParties m rest
    .ok ({ id := rp.id, discipline := rp.discipline, members := mids } :: tail)

/-- The pure part of `load_congress_graph_from_toml` (after TOML parsing):
build the graph from the raw config, or report the first defect. -/
def load (raw : RawConfig α) : Except String (CongressGraph α) := do
  let (nodes, index_map) ← insertMembers raw.ideal_dimension raw.congress_members [] []
  let edges ← resolveEdges index_map (raw.edges.getD [])
  let parties ← resolveParties index_map raw.parties
  .ok { nodes := nodes, edges := edges, parties := parties }

/-- First defect class of §7: some member's ideal-vector length differs from
the declared dimension. -/
def BadDim (raw : RawConfig α) : Prop :=
  ∃ rm ∈ raw.congress_members, rm.ideal.length ≠ raw.ideal_dimension

/-- Second defect class of §7: an edge or party member refers to an id that
is not the id of any member. -/
def BadRef (raw : RawConfig α) : Prop :=
  (∃ e ∈ raw.edges.getD [],
    e.from_ ∉ raw.congress_members.map RawMember.id ∨
    e.to_ ∉ raw.congress_members.map RawMember.id) ∨
  (∃ rp ∈ raw.parties, ∃ mid ∈ rp.members,
    mid ∉ raw.congress_members.map RawMember.id)

end Loader

section SpecSide

variable {α : Type*} [LinearOrderedField α]

/-- The peer-pressure formula as the spec words it: the edge-weight-weighted
average of `sign(source score)` over the incoming edges, `0` when the total
incoming weight is at most machine epsilon in absolute value. -/
def peerSpec (g : CongressGraph α) (scores : List α) (i : Nat) : α :=
  let incoming := g.edges.filter (fun e => e.target = i)
  if |(incoming.map Edge.weight).sum| ≤ epsF α then 0
  else
    (incoming.map (fun e => e.weight * fsignum (scores.getD e.source 0))).sum /
      (incoming.map Edge.weight).sum

/-- The party-pressure formula as the spec words it: discipline times the
average of `sign(score)` over the party's members, `0` for a memberless party
or no affiliation. -/
def partySpec (g : CongressGraph α) (scores : List α) (i : Nat) : α :=
  match (get_party_index g i).bind (get_party g) with
  | none => 0
  | some party =>
    if party.members.length = 0 then 0
    else
      party.discipline *
        ((party.members.map (fun m => fsignum (scores.getD m 0))).sum /
          (party.members.length : α))

lemma foldl_pair_sum (l : List β) (f w : β → α) (x y : α) :
    l.foldl (fun acc e => (acc.1 + f e, acc.2 + w e)) (x, y) =
      (x + (l.map f).sum, y + (l.map w).sum) := by
  induction l generalizing x y with
  | nil => simp
  | cons e rest ih => simp [ih, add_assoc]

lemma foldl_pair_count (l : List β) (f : β → α) (x : α) (c : ℕ) :
    l.foldl (fun acc e => (acc.1 + f e, acc.2 + 1)) (x, c) =
      (x + (l.map f).sum, c + l.length) := by
  induction l generalizing x c with
  | nil => simp
  | cons e rest ih => simp [ih, add_assoc, Nat.add_assoc, Nat.add_comm 1]

end SpecSide

/-- C1: during a round each member's social pressure is peer pressure plus
party pressure; peer pressure is the weight-weighted average of the signs of
the incoming sources' current scores (0 when the total incoming weight is at
most machine epsilon in absolute value); party pressure is discipline times
the average sign over the party's members (0 with no affiliation or an empty
party). -/
theorem social_pressure_formula {α : Type*} [LinearOrderedField α]
    (g : CongressGraph α) (scores : List α) (i : Nat) :
    processNode g scores i =
      update_node_score g scores i
        (calculate_peer_pressure g scores i + calculate_party_pressure g scores i) ∧
    calculate_peer_pressure g scores i = peerSpec g scores i ∧
    calculate_party_pressure g scores i = partySpec g scores i := by
  refine ⟨rfl, ?_, ?_⟩
  · unfold calculate_peer_pressure peerSpec
    rw [foldl_pair_sum]
    simp only [zero_add]
    rcases le_or_lt |((g.edges.filter (fun e => e.target = i)).map Edge.weight).sum|
      (epsF α) with h | h
    · rw [if_neg (not_lt.mpr h), if_pos h]
    · rw [if_pos h, if_neg (not_le.mpr h)]
  · unfold calculate_party_pressure partySpec
    cases hp : (get_party_index g i).bind (get_party g) with
    | none => rfl
    | some party =>
      dsimp only
      rw [foldl_pair_count]
      simp

/-- C2: processing a member replaces its score by
`(1-swing)*current + swing*social` in place — the round then continues on the
updated array, so later members of the same round read the new value — and no
other slot changes. -/
theorem run_update_in_place {α : Type*} [LinearOrderedField α]
    (g : CongressGraph α) (scores : List α) (i : Nat) (rest : List Nat)
    (node : Node α) (hn : g.nodes.get? i = some node) (hs : i < scores.length) :
    processRound g scores (i :: rest) = processRound g (processNode g scores i) rest ∧
    (processNode g scores i).getD i 0 =
      (1 - node.swing) * scores.getD i 0 +
        node.swing *
          (calculate_peer_pressure g scores i + calculate_party_pressure g scores i) ∧
    ∀ j, j ≠ i → (processNode g scores i).getD j 0 = scores.getD j 0 := by
  refine ⟨rfl, ?_, ?_⟩
  · unfold processNode update_node_score
    rw [hn]
    simp [List.getD_eq_getElem?_getD, List.getElem?_set_self',
      List.getElem?_eq_getElem hs]
  · intro j hj
    unfold processNode update_node_score
    rw [hn]
    simp [List.getD_eq_getElem?_getD, List.getElem?_set_ne hj.symm]

/-- Single-node graph used to instantiate `run_update_in_place`. -/
def w2g : CongressGraph ℚ := ⟨[⟨"A", [1], 0, 1⟩], [], []⟩

/-- Witness for C2 at a concrete one-node graph. -/
theorem run_update_in_place_witness :
    processRound w2g [(5 : ℚ)] (0 :: []) =
        processRound w2g (processNode w2g [(5 : ℚ)] 0) [] ∧
    (processNode w2g [(5 : ℚ)] 0).getD 0 0 =
      (1 - (Node.mk "A" [(1 : ℚ)] 0 1).swing) * ([(5 : ℚ)].getD 0 0) +
        (Node.mk "A" [(1 : ℚ)] 0 1).swing *
          (calculate_peer_pressure w2g [(5 : ℚ)] 0 +
            calculate_party_pressure w2g [(5 : ℚ)] 0) ∧
    ∀ j, j ≠ 0 → (processNode w2g [(5 : ℚ)] 0).getD j 0 = [(5 : ℚ)].getD j 0 :=
  run_update_in_place w2g [(5 : ℚ)] 0 [] ⟨"A", [1], 0, 1⟩ rfl (by decide)

/-- C3: `run` finalizes votes exactly once, from the scores left after all
rounds: vote `1` iff the final score exceeds `threshold`, `-1` iff it is below
`-threshold`, `0` otherwise; and a fresh `Simulator` starts with every vote
`0` (abstain). -/
theorem run_finalizes_votes {α : Type*} [LinearOrderedField α]
    (g : CongressGraph α) (sim : Simulator α) (orders : List (List Nat))
    (threshold : α) (i : Nat) (hi : i < g.nodes.length) :
    (run g sim orders threshold).scores = orders.foldl (processRound g) sim.scores ∧
    (run g sim orders threshold).votes.get? i =
      some (if (orders.foldl (processRound g) sim.scores).getD i 0 > threshold then 1
        else if (orders.foldl (processRound g) sim.scores).getD i 0 < -threshold then -1
        else 0) ∧
    ∀ (g' : CongressGraph ℝ) (proposal : List ℝ),
      (Simulator.new g' proposal).votes = List.replicate g'.nodes.length 0 := by
  refine ⟨rfl, ?_, fun g' proposal => rfl⟩
  unfold run finalizeVote
  simp only [List.get?_eq_getElem?, List.getElem?_map, List.getElem?_range hi,
    Option.map_some']

/-- Witness for C3 on a one-node graph. -/
theorem run_finalizes_votes_witness :
    (run w2g ⟨[(2 : ℚ)], [0]⟩ [[0]] 1).scores =
        [[(0 : ℕ)]].foldl (processRound w2g) [(2 : ℚ)] ∧
    (run w2g ⟨[(2 : ℚ)], [0]⟩ [[0]] 1).votes.get? 0 =
      some (if ([[(0 : ℕ)]].foldl (processRound w2g) [(2 : ℚ)]).getD 0 0 > 1 then 1
        else if ([[(0 : ℕ)]].foldl (processRound w2g) [(2 : ℚ)]).getD 0 0 < -1 then -1
        else 0) ∧
    ∀ (g' : CongressGraph ℝ) (proposal : List ℝ),
      (Simulator.new g' proposal).votes = List.replicate g'.nodes.length 0 :=
  run_finalizes_votes w2g ⟨[(2 : ℚ)], [0]⟩ [[0]] 1 0 (by decide)

/-- C4: the pass/fail table of `passes`.  With `cast = yes+no` and
`all = yes+no+abstain`: SIMPLE iff `cast > 0` and `yes/cast > 1/2`, SUPER iff
`cast > 0` and `yes/cast > 2/3`, ABS_SIMPLE iff `all > 0` and `yes/all > 1/2`,
ABS_SUPER iff `all > 0` and `yes/all > 2/3`, UNANIMITY iff `all > 0` and
`yes = all`; every comparison is strict and an empty denominator gives
`false`. -/
theorem passes_rule_table (yes no abstain : ℕ) :
    (passesCounts yes no abstain .SIMPLE = true ↔
      0 < yes + no ∧ (yes : ℚ) / ((yes + no : ℕ) : ℚ) > 1 / 2) ∧
    (passesCounts yes no abstain .SUPER = true ↔
      0 < yes + no ∧ (yes : ℚ) / ((yes + no : ℕ) : ℚ) > 2 / 3) ∧
    (passesCounts yes no abstain .ABSSIMPLE = true ↔
      0 < yes + no + abstain ∧ (yes : ℚ) / ((yes + no + abstain : ℕ) : ℚ) > 1 / 2) ∧
    (passesCounts yes no abstain .ABSSUPER = true ↔
      0 < yes + no + abstain ∧ (yes : ℚ) / ((yes + no + abstain : ℕ) : ℚ) > 2 / 3) ∧
    (passesCounts yes no abstain .UNANIMITY = true ↔
      0 < yes + no + abstain ∧ yes = yes + no + abstain) ∧
    ∀ (votes : List ℤ) (rule : Majority),
      passes votes rule =
        passesCounts (votes.count 1) (votes.count (-1)) (votes.count 0) rule := by
  refine ⟨?_, ?_, ?_, ?_, ?_, fun votes rule => rfl⟩
  · by_cases h : yes + no = 0
    · simp [passesCounts, h]
    · simp [passesCounts, h, Nat.pos_of_ne_zero h]
  · by_cases h : yes + no = 0
    · simp [passesCounts, h]
    · simp [passesCounts, h, Nat.pos_of_ne_zero h]
  · by_cases h : yes + no + abstain = 0
    · simp [passesCounts, h]
    · simp [passesCounts, h, Nat.pos_of_ne_zero h]
  · by_cases h : yes + no + abstain = 0
    · simp [passesCounts, h]
    · simp [passesCounts, h, Nat.pos_of_ne_zero h]
  · simp [passesCounts]

lemma dot_cons (x y : ℝ) (a b : List ℝ) :
    dot (x :: a) (y :: b) = x * y + dot a b := by
  simp [dot]

lemma dot_self_nonneg (a : List ℝ) : 0 ≤ dot a a := by
  induction a with
  | nil => simp [dot]
  | cons x a ih => rw [dot_cons]; nlinarith [sq_nonneg x]

lemma dot_cauchy_schwarz (a b : List ℝ) : dot a b ^ 2 ≤ dot a a * dot b b := by
  induction a generalizing b with
  | nil => simp [dot]
  | cons x a ih =>
    cases b with
    | nil => simp [dot]
    | cons y b =>
      have h := ih b
      have h1 := dot_self_nonneg a
      have h2 := dot_self_nonneg b
      simp only [dot_cons]
      rcases eq_or_lt_of_le h2 with hB | hB
      · have hd2 : dot a b ^ 2 = 0 := le_antisymm (by nlinarith) (sq_nonneg _)
        rw [sq_eq_zero_iff.mp hd2, ← hB]
        nlinarith [mul_nonneg h1 (sq_nonneg y)]
      · nlinarith [sq_nonneg (x * dot b b - y * dot a b),
          mul_nonneg (add_nonneg (sq_nonneg y) h2) (sub_nonneg.mpr h), hB]

lemma dot_map_neg_right (a : List ℝ) :
    dot a (a.map fun x => -x) = -(dot a a) := by
  induction a with
  | nil => simp [dot]
  | cons x a ih => simp only [List.map_cons, dot_cons, ih]; ring

lemma dot_map_neg_self (a : List ℝ) :
    dot (a.map fun x => -x) (a.map fun x => -x) = dot a a := by
  induction a with
  | nil => simp [dot]
  | cons x a ih => simp only [List.map_cons, dot_cons, ih]; ring

lemma vnorm_nonneg (a : List ℝ) : 0 ≤ vnorm a := Real.sqrt_nonneg _

lemma abs_dot_le (a b : List ℝ) : |dot a b| ≤ vnorm a * vnorm b := by
  rw [← Real.sqrt_sq_eq_abs, vnorm, vnorm, ← Real.sqrt_mul (dot_self_nonneg a)]
  exact Real.sqrt_le_sqrt (dot_cauchy_schwarz a b)

lemma epsF_pos : (0 : ℝ) < epsF ℝ := by norm_num [epsF]

lemma vnorm_single (x : ℝ) : vnorm [x] = |x| := by
  simp only [vnorm, dot, List.zipWith_cons_cons, List.zipWith_nil_right,
    List.sum_cons, List.sum_nil, add_zero]
  exact Real.sqrt_mul_self_eq_abs x

lemma vnorm_one_not_small : ¬ |vnorm [(1 : ℝ)]| < epsF ℝ := by
  rw [vnorm_single]
  norm_num [epsF]

/-- The degenerate branch of `cosine_similarity`. -/
lemma cosine_degenerate {a b : List ℝ}
    (h : |vnorm a| < epsF ℝ ∨ |vnorm b| < epsF ℝ) : cosine_similarity a b = 0 := by
  rw [cosine_similarity, if_pos h]

/-- `cosine_similarity` of a non-degenerate vector with itself is exactly 1. -/
lemma cosine_self {a : List ℝ} (hna : ¬ |vnorm a| < epsF ℝ) :
    cosine_similarity a a = 1 := by
  have ha : 0 < vnorm a :=
    lt_of_lt_of_le epsF_pos (abs_of_nonneg (vnorm_nonneg a) ▸ not_lt.mp hna)
  have hda : 0 < dot a a := Real.sqrt_pos.mp ha
  have hsq : vnorm a * vnorm a = dot a a := Real.mul_self_sqrt (dot_self_nonneg a)
  rw [cosine_similarity, if_neg (by simp [hna]), hsq, div_self (ne_of_gt hda)]

/-- `cosine_similarity` of a non-degenerate vector with its pointwise
negation is exactly -1. -/
lemma cosine_opposite {a : List ℝ} (hna : ¬ |vnorm a| < epsF ℝ) :
    cosine_similarity a (a.map fun x => -x) = -1 := by
  have ha : 0 < vnorm a :=
    lt_of_lt_of_le epsF_pos (abs_of_nonneg (vnorm_nonneg a) ▸ not_lt.mp hna)
  have hda : 0 < dot a a := Real.sqrt_pos.mp ha
  have hsq : vnorm a * vnorm a = dot a a := Real.mul_self_sqrt (dot_self_nonneg a)
  have hvb : vnorm (a.map fun x => -x) = vnorm a := by
    rw [vnorm, vnorm, dot_map_neg_self]
  rw [cosine_similarity, if_neg (by simp [hvb, hna]), hvb, hsq,
    dot_map_neg_right, neg_div, div_self (ne_of_gt hda)]

/-- C5 counterexample: the zero vector is identical to itself, yet
`cosine_similarity` returns `0` there, not `1` (the degenerate-norm guard
fires first). -/
theorem cosine_identical_zero_counterexample :
    cosine_similarity [(0 : ℝ)] [(0 : ℝ)] = 0 ∧ (0 : ℝ) ≠ 1 := by
  constructor
  · rw [cosine_similarity, if_pos]
    left
    simp only [vnorm, dot, List.zipWith_cons_cons, mul_zero, List.zipWith_nil_right,
      List.sum_cons, List.sum_nil, add_zero, Real.sqrt_zero, abs_zero]
    exact epsF_pos
  · norm_num

/-- C5 (amended): for every pair of equal-dimension real vectors,
`cosine_similarity` lies in `[-1, 1]`, and is `0` whenever either argument's
norm is below machine epsilon in absolute value; for a vector whose norm is
not below machine epsilon it is exactly `1` against itself and exactly `-1`
against its pointwise negation (both inherently equal-dimension pairs).
nalgebra's `dot` asserts equal dimensions, so the claim is only about
equal-dimension pairs; the `hlen` hypothesis keeps the statement inside that
precondition (the model's `dot` does not itself need it). -/
theorem cosine_similarity_props (a b : List ℝ) (hlen : a.length = b.length) :
    (-1 ≤ cosine_similarity a b ∧ cosine_similarity a b ≤ 1) ∧
    (|vnorm a| < epsF ℝ ∨ |vnorm b| < epsF ℝ → cosine_similarity a b = 0) ∧
    (¬ |vnorm a| < epsF ℝ →
      cosine_similarity a a = 1 ∧
      cosine_similarity a (a.map fun x => -x) = -1) := by
  have habs : ∀ c : List ℝ, |vnorm c| = vnorm c := fun c => abs_of_nonneg (vnorm_nonneg c)
  refine ⟨?_, cosine_degenerate, fun hna => ⟨cosine_self hna, cosine_opposite hna⟩⟩
  rw [cosine_similarity]
  by_cases hg : |vnorm a| < epsF ℝ ∨ |vnorm b| < epsF ℝ
  · rw [if_pos hg]; norm_num
  · rw [if_neg hg]
    push_neg at hg
    have ha : 0 < vnorm a := lt_of_lt_of_le epsF_pos (habs a ▸ hg.1)
    have hb : 0 < vnorm b := lt_of_lt_of_le epsF_pos (habs b ▸ hg.2)
    have hD : 0 < vnorm a * vnorm b := mul_pos ha hb
    have : |dot a b / (vnorm a * vnorm b)| ≤ 1 := by
      rw [abs_div, abs_of_pos hD]
      exact (div_le_one hD).mpr (abs_dot_le a b)
    exact abs_le.mp this

/-- Witness for C5 at the one-dimensional vectors `[1]` and `[0]`. -/
theorem cosine_similarity_props_witness :
    (-1 ≤ cosine_similarity [(1 : ℝ)] [(0 : ℝ)] ∧
      cosine_similarity [(1 : ℝ)] [(0 : ℝ)] ≤ 1) ∧
    cosine_similarity [(1 : ℝ)] [(0 : ℝ)] = 0 ∧
    cosine_similarity [(1 : ℝ)] [(1 : ℝ)] = 1 ∧
    cosine_similarity [(1 : ℝ)] ([(1 : ℝ)].map fun x => -x) = -1 := by
  have h0 : |vnorm [(0 : ℝ)]| < epsF ℝ := by
    rw [vnorm_single]
    simpa using epsF_pos
  have h1 : ¬ |vnorm [(1 : ℝ)]| < epsF ℝ := vnorm_one_not_small
  exact ⟨(cosine_similarity_props [(1 : ℝ)] [(0 : ℝ)] rfl).1,
    (cosine_similarity_props [(1 : ℝ)] [(0 : ℝ)] rfl).2.1 (Or.inr h0),
    ((cosine_similarity_props [(1 : ℝ)] [(1 : ℝ)] rfl).2.2 h1).1,
    ((cosine_similarity_props [(1 : ℝ)] [(1 : ℝ)] rfl).2.2 h1).2⟩

/-- C6 counterexample: a member whose ideal vector is the zero vector, with
`bias = 0` and the proposal equal to that ideal, gets initial score `0`
(`cosine_similarity` hits its degenerate-norm guard), not `1.0`. -/
theorem initial_score_zero_ideal_counterexample :
    (Simulator.new ⟨[⟨"A", [(0 : ℝ)], 0, 1⟩], [], []⟩ [(0 : ℝ)]).scores = [0] ∧
    (0 : ℝ) ≠ 1 := by
  constructor
  · have h0 : |vnorm [(0 : ℝ)]| < epsF ℝ := by
      rw [vnorm_single]
      simpa using epsF_pos
    simp [Simulator.new, cosine_degenerate (Or.inl h0)]
  · norm_num

/-- C6 (amended): `Simulator::new` gives every member the initial score
`cosine_similarity(ideal, proposal) + bias`; in particular a member with
`bias = 0`, a proposal equal to its own ideal vector, and an ideal whose norm
is not below machine epsilon starts at exactly `1.0`. -/
theorem initial_scores (g : CongressGraph ℝ) (proposal : List ℝ) (i : Nat)
    (node : Node ℝ) (hn : g.nodes.get? i = some node) :
    (Simulator.new g proposal).scores.get? i =
      some (cosine_similarity node.ideal proposal + node.bias) ∧
    (node.bias = 0 → proposal = node.ideal → ¬ |vnorm node.ideal| < epsF ℝ →
      (Simulator.new g proposal).scores.get? i = some 1) := by
  have hn' : g.nodes[i]? = some node := by rwa [List.get?_eq_getElem?] at hn
  have h1 : (Simulator.new g proposal).scores.get? i =
      some (cosine_similarity node.ideal proposal + node.bias) := by
    simp only [Simulator.new, List.get?_eq_getElem?, List.getElem?_map, hn',
      Option.map_some']
  refine ⟨h1, fun hb hp hna => ?_⟩
  rw [h1, hb, hp, cosine_self hna, add_zero]

/-- Witness for C6 on a one-member graph with ideal `[1]`. -/
theorem initial_scores_witness :
    (Simulator.new ⟨[⟨"A", [(1 : ℝ)], 0, 1⟩], [], []⟩ [(1 : ℝ)]).scores.get? 0 =
      some (cosine_similarity (Node.mk "A" [(1 : ℝ)] 0 1).ideal [(1 : ℝ)] +
        (Node.mk "A" [(1 : ℝ)] 0 1).bias) ∧
    ((Node.mk "A" [(1 : ℝ)] 0 1).bias = 0 → [(1 : ℝ)] = (Node.mk "A" [(1 : ℝ)] 0 1).ideal →
      ¬ |vnorm (Node.mk "A" [(1 : ℝ)] 0 1).ideal| < epsF ℝ →
      (Simulator.new ⟨[⟨"A", [(1 : ℝ)], 0, 1⟩], [], []⟩ [(1 : ℝ)]).scores.get? 0 = some 1) ∧
    (Simulator.new ⟨[⟨"A", [(1 : ℝ)], 0, 1⟩], [], []⟩ [(1 : ℝ)]).scores.get? 0 = some 1 := by
  have h := initial_scores ⟨[⟨"A", [(1 : ℝ)], 0, 1⟩], [], []⟩ [(1 : ℝ)] 0
    ⟨"A", [(1 : ℝ)], 0, 1⟩ rfl
  exact ⟨h.1, h.2, h.2 rfl rfl vnorm_one_not_small⟩

/-- C10: the sign used by both pressure computations is `f64::signum`, which
is never `0`: a score of exactly `0.0` contributes `+1` to the sign averages
(not the `0` of the mathematical sign function).  Concretely, a sole incoming
source with score `0` yields peer pressure `1`, and a one-member party whose
member's score is `0` yields party pressure `discipline * 1`. -/
theorem fsignum_never_zero :
    (∀ x : ℚ, fsignum x = 1 ∨ fsignum x = -1) ∧
    (∀ x : ℚ, fsignum x ≠ 0) ∧
    fsignum (0 : ℚ) = 1 ∧
    calculate_peer_pressure
      (⟨[⟨"A", [], 0, 1⟩, ⟨"B", [], 0, 1⟩], [⟨0, 1, 1⟩], []⟩ : CongressGraph ℚ)
      [0, 5] 1 = 1 ∧
    calculate_party_pressure
      (⟨[⟨"A", [], 0, 1⟩], [], [⟨"P", 1, [0]⟩]⟩ : CongressGraph ℚ) [0] 0 = 1 := by
  refine ⟨fun x => ?_, fun x => ?_, by norm_num [fsignum], ?_, ?_⟩
  · unfold fsignum
    by_cases h : 0 ≤ x <;> simp [h]
  · unfold fsignum
    by_cases h : 0 ≤ x <;> simp [h]
  · norm_num [calculate_peer_pressure, List.filter, fsignum, epsF]
  · norm_num [calculate_party_pressure, get_party_index, get_party, node_party_map,
      mapInsert, List.enum, fsignum]

/-- The end-to-end scenario graph of §8: members A, B, C in one party with
discipline 1.0, a single edge A→B with weight 1.0, all swing 1.0, bias 0,
ideal vectors all `[1]` (so a proposal of `[1]` is identical to each ideal). -/
def g7 : CongressGraph ℝ :=
  ⟨[⟨"A", [1], 0, 1⟩, ⟨"B", [1], 0, 1⟩, ⟨"C", [1], 0, 1⟩],
   [⟨0, 1, 1⟩],
   [⟨"P", 1, [0, 1, 2]⟩]⟩

lemma g7_new : Simulator.new g7 [1] = ⟨[1, 1, 1], [0, 0, 0]⟩ := by
  simp [Simulator.new, g7, cosine_self vnorm_one_not_small, List.replicate]

/-- C7 counterexample: in the §8 scenario the scores do NOT all remain 1.0
after round 1: B receives peer pressure 1 from A *plus* party pressure 1, so
with swing 1 its score becomes 2.0 (here at processing order A,B,C). -/
theorem end_to_end_counterexample :
    (run g7 (Simulator.new g7 [1]) [[0, 1, 2]] (1 / 10)).scores = [1, 2, 1] ∧
    [(1 : ℝ), 2, 1] ≠ [1, 1, 1] := by
  constructor
  · rw [g7_new]
    norm_num [run, processRound, processNode, update_node_score, calculate_peer_pressure,
      calculate_party_pressure, get_party_index, get_party, node_party_map, mapInsert,
      List.enum, List.filter, fsignum, epsF, g7, finalizeVote, List.range_succ]
  · intro h
    have := List.head_eq_of_cons_eq (List.tail_eq_of_cons_eq h)
    norm_num at this

/-- C7 (amended): in the §8 scenario (initial scores all 1.0), after round 1 —
whatever order the round's shuffle produced — A's and C's scores are still 1.0
but B's score is 2.0 (its social pressure is peer 1 + party 1 = 2); with
threshold 0.1 every member still votes YES, and both `passes(SIMPLE)` and
`passes(UNANIMITY)` hold. -/
theorem end_to_end_scenario (order : List Nat)
    (h : order ∈ [[0, 1, 2], [0, 2, 1], [1, 0, 2], [1, 2, 0], [2, 0, 1], [2, 1, 0]]) :
    (run g7 (Simulator.new g7 [1]) [order] (1 / 10)).scores = [1, 2, 1] ∧
    (run g7 (Simulator.new g7 [1]) [order] (1 / 10)).votes = [1, 1, 1] ∧
    passes (run g7 (Simulator.new g7 [1]) [order] (1 / 10)).votes .SIMPLE = true ∧
    passes (run g7 (Simulator.new g7 [1]) [order] (1 / 10)).votes .UNANIMITY = true := by
  rw [g7_new]
  fin_cases h <;>
    norm_num [run, processRound, processNode, update_node_score, calculate_peer_pressure,
      calculate_party_pressure, get_party_index, get_party, node_party_map, mapInsert,
      List.enum, List.filter, fsignum, epsF, g7, finalizeVote, List.range_succ,
      passes, passesCounts, tally]

/-- Witness for C7 at the processing order A, B, C. -/
theorem end_to_end_scenario_witness :
    (run g7 (Simulator.new g7 [1]) [[0, 1, 2]] (1 / 10)).scores = [1, 2, 1] ∧
    (run g7 (Simulator.new g7 [1]) [[0, 1, 2]] (1 / 10)).votes = [1, 1, 1] ∧
    passes (run g7 (Simulator.new g7 [1]) [[0, 1, 2]] (1 / 10)).votes .SIMPLE = true ∧
    passes (run g7 (Simulator.new g7 [1]) [[0, 1, 2]] (1 / 10)).votes .UNANIMITY = true :=
  end_to_end_scenario [0, 1, 2] (by simp)

lemma foldlM_option_eq_some_inv {β γ : Type} (P : β → Prop) (f : β → γ → Option β)
    (gg : β → γ → β) (l : List γ) (b : β) (hb : P b)
    (hstep : ∀ b x, P b → x ∈ l → f b x = some (gg b x) ∧ P (gg b x)) :
    l.foldlM f b = some (l.foldl gg b) ∧ P (l.foldl gg b) := by
  induction l generalizing b with
  | nil => exact ⟨rfl, hb⟩
  | cons x xs ih =>
    have hx := hstep b x hb (List.mem_cons_self x xs)
    rw [List.foldlM_cons, hx.1]
    simpa using ih (gg b x) hx.2 (fun b' y hb' hy => hstep b' y hb' (List.mem_cons_of_mem x hy))

lemma mapM_option_eq_some {γ δ : Type} (f : γ → Option δ) (g : γ → δ) (l : List γ)
    (h : ∀ x ∈ l, f x = some (g x)) : l.mapM f = some (l.map g) := by
  induction l with
  | nil => rfl
  | cons x xs ih =>
    rw [List.mapM_cons, h x (List.mem_cons_self x xs),
      ih (fun y hy => h y (List.mem_cons_of_mem x hy))]
    rfl

section CheckedEq

variable {α : Type} [LinearOrderedField α]

lemma update_node_score_length (g : CongressGraph α) (scores : List α) (i : Nat)
    (sp : α) : (update_node_score g scores i sp).length = scores.length := by
  unfold update_node_score
  cases g.nodes.get? i <;> simp

lemma processNode_length (g : CongressGraph α) (scores : List α) (i : Nat) :
    (processNode g scores i).length = scores.length :=
  update_node_score_length g scores i _

lemma peer?_eq (g : CongressGraph α) (scores : List α) (i : Nat)
    (h : ∀ e ∈ g.edges, e.source < scores.length) :
    peer? g scores i = some (calculate_peer_pressure g scores i) := by
  unfold peer? calculate_peer_pressure
  have hf := foldlM_option_eq_some_inv (fun _ => True)
    (fun (acc : α × α) e => do
      let s ← scores.get? e.source
      pure (acc.1 + e.weight * fsignum s, acc.2 + e.weight))
    (fun acc e =>
      (acc.1 + e.weight * fsignum (scores.getD e.source 0), acc.2 + e.weight))
    (g.edges.filter (fun e => e.target = i)) ((0 : α), (0 : α)) trivial ?_
  · rw [hf.1]
    rfl
  · intro acc e _ he
    have hs : e.source < scores.length := h e (List.mem_of_mem_filter he)
    refine ⟨?_, trivial⟩
    simp [List.get?_eq_getElem?, List.getD_eq_getElem?_getD, List.getElem?_eq_getElem hs]

lemma party?_eq (g : CongressGraph α) (scores : List α) (i : Nat)
    (h : ∀ p ∈ g.parties, ∀ mem ∈ p.members, mem < scores.length) :
    party? g scores i = some (calculate_party_pressure g scores i) := by
  unfold party? calculate_party_pressure
  cases hp : (get_party_index g i).bind (get_party g) with
  | none => rfl
  | some party =>
    have hmem : party ∈ g.parties := by
      rcases Option.bind_eq_some.mp hp with ⟨pidx, _, hgp⟩
      unfold get_party at hgp
      exact List.get?_mem hgp
    have hf := foldlM_option_eq_some_inv (fun _ => True)
      (fun (acc : α × ℕ) mem => do
        let s ← scores.get? mem
        pure (acc.1 + fsignum s, acc.2 + 1))
      (fun acc mem => (acc.1 + fsignum (scores.getD mem 0), acc.2 + 1))
      party.members ((0 : α), (0 : ℕ)) trivial ?_
    · dsimp only
      rw [hf.1]
      rfl
    · intro acc mem _ hm
      have hs : mem < scores.length := h party hmem mem hm
      refine ⟨?_, trivial⟩
      simp [List.get?_eq_getElem?, List.getD_eq_getElem?_getD, List.getElem?_eq_getElem hs]

lemma update_node_score?_eq (g : CongressGraph α) (scores : List α) (i : Nat)
    (sp : α) (hi : i < g.nodes.length) (hs : i < scores.length) :
    update_node_score? g scores i sp = some (update_node_score g scores i sp) := by
  unfold update_node_score? update_node_score
  rw [List.get?_eq_getElem?, List.getElem?_eq_getElem hi,
    List.get?_eq_getElem? scores, List.getElem?_eq_getElem hs]
  simp [List.getD_eq_getElem?_getD, List.getElem?_eq_getElem hs]

lemma processNode?_eq (g : CongressGraph α) (scores : List α) (i : Nat)
    (hval : ValidGraph g) (hlen : scores.length = g.nodes.length)
    (hi : i < g.nodes.length) :
    processNode? g scores i = some (processNode g scores i) := by
  unfold processNode? processNode
  rw [peer?_eq g scores i (fun e he => hlen ▸ (hval.1 e he).1),
    party?_eq g scores i (fun p hp mem hm => hlen ▸ hval.2 p hp mem hm)]
  exact update_node_score?_eq g scores i _ hi (hlen ▸ hi)

lemma processRound?_eq (g : CongressGraph α) (scores : List α) (order : List Nat)
    (hval : ValidGraph g) (hlen : scores.length = g.nodes.length)
    (horder : ∀ i ∈ order, i < g.nodes.length) :
    processRound? g scores order = some (processRound g scores order) ∧
    (processRound g scores order).length = g.nodes.length := by
  unfold processRound? processRound
  exact foldlM_option_eq_some_inv (fun s : List α => s.length = g.nodes.length)
    (processNode? g) (processNode g) order scores hlen
    (fun s i hlen' hi =>
      ⟨processNode?_eq g s i hval hlen' (horder i hi),
       (processNode_length g s i).trans hlen'⟩)

/-- C8: on a graph whose edge endpoints and party member references all
resolve to existing members (`ValidGraph`), and with the per-round orders
drawn from the graph's own node indices (as `run`'s shuffles are), the
fully index-checked `run?` never fails: it returns exactly the total `run`
(all divisions being guarded to return 0 on a numerically zero denominator
is built into `calculate_peer_pressure` / `calculate_party_pressure` /
`cosine_similarity`). -/
theorem run_never_fails (g : CongressGraph α) (sim : Simulator α)
    (orders : List (List Nat)) (threshold : α) (hval : ValidGraph g)
    (hlen : sim.scores.length = g.nodes.length)
    (horders : ∀ o ∈ orders, ∀ i ∈ o, i < g.nodes.length) :
    run? g sim orders threshold = some (run g sim orders threshold) := by
  unfold run? run
  have router := foldlM_option_eq_some_inv (fun s : List α => s.length = g.nodes.length)
    (processRound? g) (processRound g) orders sim.scores hlen
    (fun s o hlen' ho => processRound?_eq g s o hval hlen' (horders o ho))
  rw [router.1]
  have hv := mapM_option_eq_some
    (fun i => do
      let s ← (orders.foldl (processRound g) sim.scores).get? i
      pure (finalizeVote threshold s))
    (fun i => finalizeVote threshold ((orders.foldl (processRound g) sim.scores).getD i 0))
    (List.range g.nodes.length) ?_
  · simp only [Option.bind_eq_bind, Option.some_bind] at hv ⊢
    rw [hv]
    rfl
  · intro i hi
    have hi' : i < (orders.foldl (processRound g) sim.scores).length := by
      rw [router.2]
      exact List.mem_range.mp hi
    simp [List.get?_eq_getElem?, List.getD_eq_getElem?_getD, List.getElem?_eq_getElem hi']

end CheckedEq

/-- Two-member graph with an edge and a party, used to instantiate
`run_never_fails`. -/
def g8 : CongressGraph ℚ :=
  ⟨[⟨"A", [1], 0, 1⟩, ⟨"B", [1], 0, (1 : ℚ) / 2⟩],
   [⟨0, 1, 1⟩],
   [⟨"P", (1 : ℚ) / 2, [0, 1]⟩]⟩

/-- Witness for C8 on a concrete valid two-member graph. -/
theorem run_never_fails_witness :
    run? g8 ⟨[1, 1], [0, 0]⟩ [[1, 0], [0, 1]] (1 / 10) =
      some (run g8 ⟨[1, 1], [0, 0]⟩ [[1, 0], [0, 1]] (1 / 10)) :=
  run_never_fails g8 ⟨[1, 1], [0, 0]⟩ [[1, 0], [0, 1]] (1 / 10)
    ⟨by decide, by decide⟩ (by decide) (by decide)

end Polisim

namespace Polisim

lemma lookupStr_insertStr (m : List (String × Nat)) (k : String) (v : Nat) (k' : String) :
    lookupStr (insertStr m k v) k' = if k' = k then some v else lookupStr m k' := by
  unfold lookupStr insertStr
  rw [List.find?_cons]
  by_cases h : k' = k
  · subst h
    simp
  · have hd : decide (k = k') = false := by
      simp only [decide_eq_false_iff_not]
      exact fun hh => h hh.symm
    rw [hd, if_neg h]

lemma lookupStr_nil (s : String) : lookupStr [] s = none := rfl

lemma lookupStr_mem {m : List (String × Nat)} {s : String} {v : Nat}
    (h : lookupStr m s = some v) : (s, v) ∈ m := by
  unfold lookupStr at h
  rcases Option.map_eq_some'.mp h with ⟨kv, hfind, hsnd⟩
  have hkey : kv.1 = s := by
    have := List.find?_some hfind
    simpa using this
  have : kv = (s, v) := by
    rcases kv with ⟨a, b⟩
    simp only at hkey hsnd
    rw [hkey, hsnd]
  exact this ▸ List.mem_of_find?_eq_some hfind

end Polisim

namespace Polisim

section LoaderProofs

variable {α : Type}

/-- The node built from a raw member by the loader. -/
def mkNode (rm : RawMember α) : Node α :=
  { id := rm.id, ideal := rm.ideal, bias := rm.bias, swing := rm.swing }

lemma insertMembers_error (dim : Nat) (ms : List (RawMember α))
    (nodes : List (Node α)) (m : List (String × Nat))
    (hbad : ∃ rm ∈ ms, rm.ideal.length ≠ dim) :
    ∃ msg, insertMembers dim ms nodes m = .error msg := by
  induction ms generalizing nodes m with
  | nil => simp at hbad
  | cons rm rest ih =>
    by_cases hd : rm.ideal.length ≠ dim
    · exact ⟨_, by rw [insertMembers, if_pos hd]⟩
    · rcases hbad with ⟨r, hr, hbadr⟩
      rcases List.mem_cons.mp hr with rfl | hrest
      · exact absurd hbadr hd
      · rcases ih (nodes ++ [mkNode rm]) (insertStr m rm.id nodes.length)
          ⟨r, hrest, hbadr⟩ with ⟨msg, hmsg⟩
        exact ⟨msg, by rw [insertMembers, if_neg hd]; exact hmsg⟩

lemma insertMembers_ok (dim : Nat) (ms : List (RawMember α)) (nodes : List (Node α))
    (m : List (String × Nat)) (h : ∀ rm ∈ ms, rm.ideal.length = dim) :
    ∃ m', insertMembers dim ms nodes m = .ok (nodes ++ ms.map mkNode, m') ∧
      (∀ kv ∈ m', kv ∈ m ∨ kv.2 < (nodes ++ ms.map mkNode).length) ∧
      (∀ s : String, lookupStr m' s = none ↔
        lookupStr m s = none ∧ s ∉ ms.map RawMember.id) := by
  induction ms generalizing nodes m with
  | nil =>
    refine ⟨m, by simp [insertMembers], fun kv hkv => Or.inl hkv, fun s => by simp⟩
  | cons rm rest ih =>
    have hdim : ¬ rm.ideal.length ≠ dim := not_not.mpr (h rm (List.mem_cons_self rm rest))
    rcases ih (nodes ++ [mkNode rm]) (insertStr m rm.id nodes.length)
        (fun r hr => h r (List.mem_cons_of_mem _ hr)) with ⟨m', heq, hbound, hlook⟩
    have hlen : (nodes ++ [mkNode rm] ++ rest.map mkNode).length =
        (nodes ++ (rm :: rest).map mkNode).length := by simp
    refine ⟨m', ?_, ?_, ?_⟩
    · rw [insertMembers, if_neg hdim]
      refine Eq.trans heq ?_
      simp
    · intro kv hkv
      rcases hbound kv hkv with hin | hlt
      · unfold insertStr at hin
        rcases List.mem_cons.mp hin with rfl | hmem
        · right
          simp
        · exact Or.inl hmem
      · right
        rw [← hlen]
        exact hlt
    · intro s
      rw [hlook s, lookupStr_insertStr]
      by_cases hs : s = rm.id
      · subst hs
        simp
      · simp [hs, Ne.symm]

lemma resolveEdges_error (m : List (String × Nat)) (es : List (RawEdge α))
    (hbad : ∃ e ∈ es, lookupStr m e.from_ = none ∨ lookupStr m e.to_ = none) :
    ∃ msg, resolveEdges m es = .error msg := by
  induction es with
  | nil => simp at hbad
  | cons e rest ih =>
    cases hf : lookupStr m e.from_ with
    | none => exact ⟨_, by rw [resolveEdges, hf]⟩
    | some fi =>
      cases ht : lookupStr m e.to_ with
      | none => exact ⟨_, by rw [resolveEdges, hf, ht]⟩
      | some ti =>
        have hrest : ∃ e' ∈ rest, lookupStr m e'.from_ = none ∨ lookupStr m e'.to_ = none := by
          rcases hbad with ⟨e', he', hbad'⟩
          rcases List.mem_cons.mp he' with rfl | hr
          · rcases hbad' with h' | h' <;> simp [hf, ht] at h'
          · exact ⟨e', hr, hbad'⟩
        rcases ih hrest with ⟨msg, hmsg⟩
        refine ⟨msg, ?_⟩
        rw [resolveEdges, hf, ht, hmsg]
        rfl

lemma resolveEdges_ok (m : List (String × Nat)) (n : Nat) (es : List (RawEdge α))
    (h : ∀ e ∈ es, lookupStr m e.from_ ≠ none ∧ lookupStr m e.to_ ≠ none)
    (hval : ∀ s v, lookupStr m s = some v → v < n) :
    ∃ edges, resolveEdges m es = .ok edges ∧
      ∀ ed ∈ edges, ed.source < n ∧ ed.target < n := by
  induction es with
  | nil => exact ⟨[], rfl, by simp⟩
  | cons e rest ih =>
    have he := h e (List.mem_cons_self e rest)
    rcases Option.ne_none_iff_exists'.mp he.1 with ⟨fi, hfi⟩
    rcases Option.ne_none_iff_exists'.mp he.2 with ⟨ti, hti⟩
    rcases ih (fun e' he' => h e' (List.mem_cons_of_mem _ he')) with ⟨tail, htail, hbtail⟩
    refine ⟨⟨fi, ti, e.weight⟩ :: tail, ?_, ?_⟩
    · rw [resolveEdges, hfi, hti, htail]
      rfl
    · intro ed hed
      rcases List.mem_cons.mp hed with rfl | hr
      · exact ⟨hval _ _ hfi, hval _ _ hti⟩
      · exact hbtail ed hr

lemma resolveMemberIds_error (m : List (String × Nat)) (pid : String)
    (mids : List String) (hbad : ∃ mid ∈ mids, lookupStr m mid = none) :
    ∃ msg, resolveMemberIds m pid mids = .error msg := by
  induction mids with
  | nil => simp at hbad
  | cons mid rest ih =>
    cases hl : lookupStr m mid with
    | none => exact ⟨_, by rw [resolveMemberIds, hl]⟩
    | some ni =>
      have hrest : ∃ mid' ∈ rest, lookupStr m mid' = none := by
        rcases hbad with ⟨mid', hm', hbad'⟩
        rcases List.mem_cons.mp hm' with rfl | hr
        · rw [hl] at hbad'
          exact absurd hbad' (by simp)
        · exact ⟨mid', hr, hbad'⟩
      rcases ih hrest with ⟨msg, hmsg⟩
      refine ⟨msg, ?_⟩
      rw [resolveMemberIds, hl, hmsg]
      rfl

lemma resolveMemberIds_ok (m : List (String × Nat)) (pid : String)
    (mids : List String) (h : ∀ mid ∈ mids, lookupStr m mid ≠ none) :
    ∃ out, resolveMemberIds m pid mids = .ok out ∧
      ∀ i ∈ out, ∃ s, lookupStr m s = some i := by
  induction mids with
  | nil => exact ⟨[], rfl, by simp⟩
  | cons mid rest ih =>
    rcases Option.ne_none_iff_exists'.mp (h mid (List.mem_cons_self mid rest)) with ⟨ni, hni⟩
    rcases ih (fun mid' hm' => h mid' (List.mem_cons_of_mem _ hm')) with ⟨tail, htail, hbtail⟩
    refine ⟨ni :: tail, ?_, ?_⟩
    · rw [resolveMemberIds, hni, htail]
      rfl
    · intro i hi
      rcases List.mem_cons.mp hi with rfl | hr
      · exact ⟨mid, hni⟩
      · exact hbtail i hr

lemma resolveParties_error (m : List (String × Nat)) (ps : List (RawParty α))
    (hbad : ∃ rp ∈ ps, ∃ mid ∈ rp.members, lookupStr m mid = none) :
    ∃ msg, resolveParties m ps = .error msg := by
  induction ps with
  | nil => simp at hbad
  | cons rp rest ih =>
    by_cases hp : ∃ mid ∈ rp.members, lookupStr m mid = none
    · rcases resolveMemberIds_error m rp.id rp.members hp with ⟨msg, hmsg⟩
      refine ⟨msg, ?_⟩
      rw [resolveParties, hmsg]
      rfl
    · have hall : ∀ mid ∈ rp.members, lookupStr m mid ≠ none := by
        push_neg at hp
        exact hp
      rcases resolveMemberIds_ok m rp.id rp.members hall with ⟨out, hout, _⟩
      have hrest : ∃ rp' ∈ rest, ∃ mid ∈ rp'.members, lookupStr m mid = none := by
        rcases hbad with ⟨rp', hrp', hbad'⟩
        rcases List.mem_cons.mp hrp' with rfl | hr
        · exact absurd hbad' hp
        · exact ⟨rp', hr, hbad'⟩
      rcases ih hrest with ⟨msg, hmsg⟩
      refine ⟨msg, ?_⟩
      rw [resolveParties, hout, hmsg]
      rfl

lemma resolveParties_ok (m : List (String × Nat)) (n : Nat) (ps : List (RawParty α))
    (h : ∀ rp ∈ ps, ∀ mid ∈ rp.members, lookupStr m mid ≠ none)
    (hval : ∀ s v, lookupStr m s = some v → v < n) :
    ∃ parties, resolveParties m ps = .ok parties ∧
      ∀ p ∈ parties, ∀ mem ∈ p.members, mem < n := by
  induction ps with
  | nil => exact ⟨[], rfl, by simp⟩
  | cons rp rest ih =>
    rcases resolveMemberIds_ok m rp.id rp.members
        (h rp (List.mem_cons_self rp rest)) with ⟨out, hout, hbout⟩
    rcases ih (fun rp' hr => h rp' (List.mem_cons_of_mem _ hr)) with ⟨tail, htail, hbtail⟩
    refine ⟨⟨rp.id, rp.discipline, out⟩ :: tail, ?_, ?_⟩
    · rw [resolveParties, hout, htail]
      rfl
    · intro p hp mem hm
      rcases List.mem_cons.mp hp with rfl | hr
      · rcases hbout mem hm with ⟨s, hs⟩
        exact hval _ _ hs
      · exact hbtail p hr mem hm

lemma ok_bind_eq {ε β γ : Type} (a : β) (f : β → Except ε γ) :
    ((Except.ok a : Except ε β) >>= f) = f a := rfl

lemma error_bind_eq {ε β γ : Type} (msg : ε) (f : β → Except ε γ) :
    ((Except.error msg : Except ε β) >>= f) = .error msg := rfl

/-- C9: the loader rejects (with an error, constructing no graph) every
config containing a member whose ideal length differs from the declared
dimension or an edge/party reference to an unknown member id; every config
free of both defects loads successfully into a graph whose edges and party
member handles all resolve to existing members. -/
theorem loader_validates (raw : RawConfig α) :
    ((BadDim raw ∨ BadRef raw) → ∃ msg, load raw = .error msg) ∧
    (¬ BadDim raw → ¬ BadRef raw →
      ∃ g, load raw = .ok g ∧ g.nodes.length = raw.congress_members.length ∧
        ValidGraph g) := by
  constructor
  · intro hdefect
    by_cases hbd : BadDim raw
    · rcases insertMembers_error raw.ideal_dimension raw.congress_members [] [] hbd with
        ⟨msg, hmsg⟩
      refine ⟨msg, ?_⟩
      unfold load
      simp only [hmsg, error_bind_eq]
    · have hdims : ∀ rm ∈ raw.congress_members, rm.ideal.length = raw.ideal_dimension := by
        unfold BadDim at hbd
        push_neg at hbd
        exact hbd
      rcases insertMembers_ok raw.ideal_dimension raw.congress_members [] [] hdims with
        ⟨m', heq, hbound, hlook⟩
      have hlooknone : ∀ s, lookupStr m' s = none ↔
          s ∉ raw.congress_members.map RawMember.id := by
        intro s
        rw [hlook s]
        simp [lookupStr_nil]
      have href : BadRef raw := (hdefect.resolve_left hbd)
      by_cases hedge : ∃ e ∈ raw.edges.getD [],
          e.from_ ∉ raw.congress_members.map RawMember.id ∨
          e.to_ ∉ raw.congress_members.map RawMember.id
      · rcases hedge with ⟨e, he, hids⟩
        have hnone : lookupStr m' e.from_ = none ∨ lookupStr m' e.to_ = none := by
          rcases hids with h' | h'
          · exact Or.inl ((hlooknone _).mpr h')
          · exact Or.inr ((hlooknone _).mpr h')
        rcases resolveEdges_error m' (raw.edges.getD []) ⟨e, he, hnone⟩ with ⟨msg, hmsg⟩
        refine ⟨msg, ?_⟩
        unfold load
        simp only [heq, ok_bind_eq, hmsg, error_bind_eq]
      · have hparty : ∃ rp ∈ raw.parties, ∃ mid ∈ rp.members,
            mid ∉ raw.congress_members.map RawMember.id := by
          rcases href with h' | h'
          · exact absurd h' hedge
          · exact h'
        have hvalm : ∀ s v, lookupStr m' s = some v →
            v < raw.congress_members.length := by
          intro s v hv
          rcases hbound (s, v) (lookupStr_mem hv) with h0 | hlt
          · simp at h0
          · simpa using hlt
        have hedgeok : ∀ e ∈ raw.edges.getD [],
            lookupStr m' e.from_ ≠ none ∧ lookupStr m' e.to_ ≠ none := by
          push_neg at hedge
          intro e he
          rcases hedge e he with ⟨hf, ht⟩
          constructor
          · intro hn
            exact absurd ((hlooknone _).mp hn) (by simpa using hf)
          · intro hn
            exact absurd ((hlooknone _).mp hn) (by simpa using ht)
        rcases resolveEdges_ok m' raw.congress_members.length (raw.edges.getD [])
            hedgeok hvalm with ⟨edges, hedges, _⟩
        rcases hparty with ⟨rp, hrp, mid, hmid, hmem⟩
        rcases resolveParties_error m' raw.parties
            ⟨rp, hrp, mid, hmid, (hlooknone _).mpr hmem⟩ with ⟨msg, hmsg⟩
        refine ⟨msg, ?_⟩
        unfold load
        simp only [heq, ok_bind_eq, hedges, hmsg, error_bind_eq]
  · intro hbd hbr
    have hdims : ∀ rm ∈ raw.congress_members, rm.ideal.length = raw.ideal_dimension := by
      unfold BadDim at hbd
      push_neg at hbd
      exact hbd
    rcases insertMembers_ok raw.ideal_dimension raw.congress_members [] [] hdims with
      ⟨m', heq, hbound, hlook⟩
    have hlooknone : ∀ s, lookupStr m' s = none ↔
        s ∉ raw.congress_members.map RawMember.id := by
      intro s
      rw [hlook s]
      simp [lookupStr_nil]
    have hvalm : ∀ s v, lookupStr m' s = some v → v < raw.congress_members.length := by
      intro s v hv
      rcases hbound (s, v) (lookupStr_mem hv) with h0 | hlt
      · simp at h0
      · simpa using hlt
    unfold BadRef at hbr
    push_neg at hbr
    rcases hbr with ⟨hedgeok, hpartyok⟩
    have hedgeok' : ∀ e ∈ raw.edges.getD [],
        lookupStr m' e.from_ ≠ none ∧ lookupStr m' e.to_ ≠ none := by
      intro e he
      rcases hedgeok e he with ⟨hf, ht⟩
      exact ⟨fun hn => absurd ((hlooknone _).mp hn) (by simpa using hf),
        fun hn => absurd ((hlooknone _).mp hn) (by simpa using ht)⟩
    have hpartyok' : ∀ rp ∈ raw.parties, ∀ mid ∈ rp.members, lookupStr m' mid ≠ none := by
      intro rp hrp mid hmid hn
      exact absurd ((hlooknone _).mp hn) (by simpa using hpartyok rp hrp mid hmid)
    rcases resolveEdges_ok m' raw.congress_members.length (raw.edges.getD [])
        hedgeok' hvalm with ⟨edges, hedges, hbedges⟩
    rcases resolveParties_ok m' raw.congress_members.length raw.parties
        hpartyok' hvalm with ⟨parties, hparties, hbparties⟩
    refine ⟨⟨[] ++ raw.congress_members.map mkNode, edges, parties⟩, ?_, ?_, ?_, ?_⟩
    · unfold load
      simp only [heq, ok_bind_eq, hedges, hparties]
    · simp
    · intro e he
      have := hbedges e he
      simpa using this
    · intro p hp mem hm
      have := hbparties p hp mem hm
      simpa using this

end LoaderProofs

/-- A config whose sole member declares a 2-element ideal against
`ideal_dimension = 1`. -/
def rawBad : RawConfig ℚ := ⟨1, [⟨"A", [1, 2], 0, 1⟩], [], none⟩

/-- A defect-free config: one member, one self-edge, one party. -/
def rawGood : RawConfig ℚ :=
  ⟨1, [⟨"A", [1], 0, 1⟩], [⟨"P", 1, ["A"]⟩], some [⟨"A", "A", 1⟩]⟩

/-- Witness for C9: the dimension-mismatch config is rejected, the
defect-free config loads into a valid graph. -/
theorem loader_validates_witness :
    (∃ msg, load rawBad = .error msg) ∧
    (∃ g, load rawGood = .ok g ∧
      g.nodes.length = rawGood.congress_members.length ∧ ValidGraph g) :=
  ⟨(loader_validates rawBad).1 (Or.inl (by simp [BadDim, rawBad])),
   (loader_validates rawGood).2 (by simp [BadDim, rawGood]) (by simp [BadRef, rawGood])⟩

end Polisim
